import Mathlib

/-!
Verification of the consolidation core of the Farmacia repository
(src/scripts/consolidar_visible.py, with src/scripts/consolidar.py and
src/scripts/consolidar_sql.py as sibling implementations).

Python strings are embedded as lists of characters, prices as rationals
(the scripts run float(precio) on decimal database values), dictionaries
as association lists processed in insertion order (matching Python dicts),
and the defaultdict of groups as an association list whose missing keys
read as the default group.
-/

namespace Farmacia

/-- Python str.isspace for the ASCII range (space, tab, newline, carriage
return, vertical tab, form feed), the characters str.strip and str.split
remove. -/
def pyIsSpace (c : Char) : Bool :=
  c = ' ' || c = '\t' || c = '\n' || c = '\r' || c = '\x0b' || c = '\x0c'

/-- Python str.isdigit restricted to the ASCII decimal digits (the digit
characters occurring in EAN data). -/
def pyIsDigit (c : Char) : Bool := '0' ≤ c && c ≤ '9'

/-- Python str.isalpha for the ASCII letters. -/
def pyIsAlpha (c : Char) : Bool := ('a' ≤ c && c ≤ 'z') || ('A' ≤ c && c ≤ 'Z')

/-- Python str.isalnum for the ASCII range: a letter or a digit. After the
ASCII fold in clean_name every character is ASCII, so this is exact there. -/
def pyIsAlnum (c : Char) : Bool := pyIsAlpha c || pyIsDigit c

/-- Python str.strip(): drop whitespace from both ends. -/
def pyStrip (s : List Char) : List Char :=
  ((s.dropWhile pyIsSpace).reverse.dropWhile pyIsSpace).reverse

/-- Python str.isdigit() on a whole string: false on the empty string,
otherwise every character is a digit. -/
def pyIsDigitStr (s : List Char) : Bool := !s.isEmpty && s.all pyIsDigit

/-- Decomposition table for the accented Latin-1 letters:
unicodedata.normalize('NFKD', s) splits each into its base ASCII letter plus
a combining mark, and .encode('ASCII', 'ignore') keeps only the base letter. -/
def accentTable : List (Char × Char) :=
  [('á', 'a'), ('à', 'a'), ('ä', 'a'), ('â', 'a'), ('ã', 'a'),
   ('é', 'e'), ('è', 'e'), ('ë', 'e'), ('ê', 'e'),
   ('í', 'i'), ('ì', 'i'), ('ï', 'i'), ('î', 'i'),
   ('ó', 'o'), ('ò', 'o'), ('ö', 'o'), ('ô', 'o'), ('õ', 'o'),
   ('ú', 'u'), ('ù', 'u'), ('ü', 'u'), ('û', 'u'),
   ('ñ', 'n'), ('ç', 'c'),
   ('Á', 'A'), ('À', 'A'), ('Ä', 'A'), ('Â', 'A'), ('Ã', 'A'),
   ('É', 'E'), ('È', 'E'), ('Ë', 'E'), ('Ê', 'E'),
   ('Í', 'I'), ('Ì', 'I'), ('Ï', 'I'), ('Î', 'I'),
   ('Ó', 'O'), ('Ò', 'O'), ('Ö', 'O'), ('Ô', 'O'), ('Õ', 'O'),
   ('Ú', 'U'), ('Ù', 'U'), ('Ü', 'U'), ('Û', 'U'),
   ('Ñ', 'N'), ('Ç', 'C')]

/-- Character-level model of
unicodedata.normalize('NFKD', ·).encode('ASCII', 'ignore').decode('utf-8'):
ASCII characters pass through, accented Latin letters fold to their base
letter, every other non-ASCII character is dropped. -/
def nfkdAsciiChar (c : Char) : List Char :=
  if c.toNat < 128 then [c]
  else match accentTable.lookup c with
    | some b => [b]
    | none => []

/-- Helper for Python str.split() with no separator: cut at whitespace runs,
dropping empty pieces; acc holds the current word reversed. -/
def wordsAux : List Char → List Char → List (List Char)
  | [], acc => if acc.isEmpty then [] else [acc.reverse]
  | c :: cs, acc =>
    if pyIsSpace c then
      if acc.isEmpty then wordsAux cs [] else acc.reverse :: wordsAux cs []
    else wordsAux cs (c :: acc)

/-- Python str.split() with no separator. -/
def pySplitWhite (s : List Char) : List (List Char) := wordsAux s []

/-- Python ' '.join(ws). -/
def joinSpace (ws : List (List Char)) : List Char := List.intercalate [' '] ws

/-- clean_name from src/scripts/consolidar_visible.py lines 12-16 (the same
function appears in src/scripts/consolidar.py lines 36-41): NFKD-fold to
ASCII, lowercase, replace every character that is neither alphanumeric nor
whitespace by a space, then collapse whitespace runs via split/join. The
isinstance(name, str) guard is absorbed by embedding names as strings. -/
def clean_name (name : List Char) : List Char :=
  let n := ((name.flatMap nfkdAsciiChar).map Char.toLower)
  joinSpace (pySplitWhite (n.map fun c => if pyIsAlnum c || pyIsSpace c then c else ' '))

/-- is_valid_ean from src/scripts/consolidar_visible.py lines 18-21 (also
src/scripts/consolidar.py lines 43-46): a None or non-string ean is invalid;
otherwise the ean is stripped of surrounding whitespace and must be all
decimal digits with length between 7 and 14. -/
def is_valid_ean : Option (List Char) → Bool
  | none => false
  | some s =>
    let t := pyStrip s
    pyIsDigitStr t && decide (7 ≤ t.length) && decide (t.length ≤ 14)

/-- The match-key computation inlined in src/scripts/consolidar_visible.py
main, lines 94-99: the ean string itself when it validates, otherwise the
literal NAME_ followed by the cleaned product name. -/
def match_key (ean : Option (List Char)) (nombre : List Char) : List Char :=
  if is_valid_ean ean then ean.getD []
  else "NAME_".data ++ clean_name nombre

/-- One input row of the consolidation query (productos joined with its most
recent precios row): pharmacy name, product name, url, optional ean, optional
price (None models a NULL or unparseable price) and stock flag. -/
structure Obs where
  farmacia : List Char
  nombre : List Char
  url : List Char
  ean : Option (List Char)
  precio : Option ℚ
  en_stock : Bool
deriving DecidableEq

/-- Association-list read, Python d.get(k): the value stored at the first
matching key. -/
def dget {α : Type} : List (List Char × α) → List Char → Option α
  | [], _ => none
  | (k, v) :: m, q => if q = k then some v else dget m q

/-- Association-list write, Python d[k] = v: replace the first matching
binding or append a new one. -/
def dset {α : Type} : List (List Char × α) → List Char → α → List (List Char × α)
  | [], q, v => [(q, v)]
  | (k, w) :: m, q, v => if q = k then (q, v) :: m else (k, w) :: dset m q v

/-- One group of the defaultdict in src/scripts/consolidar_visible.py
lines 53-59: reference name, reference ean, and the per-pharmacy
price/url/stock dictionaries. -/
structure Group where
  nombre_ref : List Char
  ean_ref : List Char
  precios : List (List Char × ℚ)
  urls : List (List Char × List Char)
  stocks : List (List Char × Bool)
deriving DecidableEq

/-- The defaultdict's default group: empty strings and empty dictionaries. -/
def emptyGroup : Group := ⟨[], [], [], [], []⟩

/-- farmacias_conocidas from src/scripts/consolidar_visible.py line 61. -/
def farmacias_conocidas : List (List Char) :=
  ["DosFarma".data, "FarmaciasDirect".data, "PromoFarma".data,
   "Atida".data, "FarmaciasVazquez".data]

/-- Read a group out of the aggregator state with defaultdict semantics:
a missing key reads as the empty group. -/
def getG (grupos : List (List Char × Group)) (k : List Char) : Group :=
  (dget grupos k).getD emptyGroup

/-- Lines 103-104 of src/scripts/consolidar_visible.py: the reference name
is replaced when empty or strictly shorter than the incoming name. -/
def updName (g : Group) (nombre : List Char) : Group :=
  if g.nombre_ref.isEmpty || g.nombre_ref.length < nombre.length then
    { g with nombre_ref := nombre }
  else g

/-- Lines 105-106 of src/scripts/consolidar_visible.py: every observation
whose ean validates writes that ean into ean_ref. -/
def updEan (g : Group) (ean : Option (List Char)) : Group :=
  match ean with
  | some e => if is_valid_ean (some e) then { g with ean_ref := e } else g
  | none => g

/-- Lines 109-116 of src/scripts/consolidar_visible.py: for a known pharmacy
with a non-null price, store the price/url/stock triple when no entry exists
yet, or when the incoming observation is in stock and strictly cheaper than
the stored price. -/
def updPrecio (g : Group) (o : Obs) : Group :=
  if o.farmacia ∈ farmacias_conocidas then
    match o.precio with
    | some p =>
      match dget g.precios o.farmacia with
      | none =>
        { g with precios := dset g.precios o.farmacia p,
                 urls := dset g.urls o.farmacia o.url,
                 stocks := dset g.stocks o.farmacia o.en_stock }
      | some pa =>
        if o.en_stock = true ∧ p < pa then
          { g with precios := dset g.precios o.farmacia p,
                   urls := dset g.urls o.farmacia o.url,
                   stocks := dset g.stocks o.farmacia o.en_stock }
        else g
    | none => g
  else g

/-- The full per-observation group update, lines 103-116 in order:
reference name, reference ean, then the per-pharmacy best entry. -/
def updGroup (g : Group) (o : Obs) : Group :=
  updPrecio (updEan (updName g o.nombre) o.ean) o

/-- One iteration of the row loop of src/scripts/consolidar_visible.py main
(lines 91-116): resolve the match key and update that key's group;
touching grupos[match_key] materialises the defaultdict entry. -/
def stepObs (grupos : List (List Char × Group)) (o : Obs) : List (List Char × Group) :=
  let k := match_key o.ean o.nombre
  dset grupos k (updGroup (getG grupos k) o)

/-- Aggregation of a list of observations in order, from the empty state. -/
def aggregate (obs : List Obs) : List (List Char × Group) :=
  obs.foldl stepObs []

/-- The first observation of the stream whose match key is k and whose ean
validates, if any, gives the first valid EAN seen for the key (the spec's
first-seen reference EAN). -/
def firstValidEanFor (l : List Obs) (k : List Char) : Option (List Char) :=
  (l.find? fun o => decide (match_key o.ean o.nombre = k) && is_valid_ean o.ean).bind
    Obs.ean

/-- Lines 141-148 of src/scripts/consolidar_visible.py: the prices entering
the min/max/savings computation are, over the known pharmacies in canonical
order, those whose row shows EnStock as Sí (stocks.get(f, False) truthy) and
a non-null price. -/
def precios_validos (g : Group) : List ℚ :=
  farmacias_conocidas.filterMap fun f =>
    match dget g.precios f, (dget g.stocks f).getD false with
    | some p, true => some p
    | _, _ => none

/-- Python min over a list of rationals: None on the empty list. -/
def listMin : List ℚ → Option ℚ
  | [] => none
  | p :: ps => some (ps.foldl min p)

/-- Python max over a list of rationals: None on the empty list. -/
def listMax : List ℚ → Option ℚ
  | [] => none
  | p :: ps => some (ps.foldl max p)

/-- Round to the nearest integer, ties to even — Python round() at the level
of exact decimal values. -/
def roundHalfEven (x : ℚ) : ℤ :=
  let f := ⌊x⌋
  let r := x - f
  if r < 1 / 2 then f
  else if 1 / 2 < r then f + 1
  else if f % 2 = 0 then f else f + 1

/-- Python round(x, 2) on exact decimal values. -/
def round2 (x : ℚ) : ℚ := (roundHalfEven (x * 100) : ℚ) / 100

/-- One output row built in lines 136-157 of src/scripts/consolidar_visible.py:
the reference name and ean, the per-pharmacy price (None when absent), stock
shown as Sí/No (embedded as a Bool) and url (empty when absent) over the known
pharmacies in canonical order, and the derived min/max/savings columns. -/
structure Fila where
  producto : List Char
  ean : List Char
  precios : List (List Char × Option ℚ)
  stocks : List (List Char × Bool)
  urls : List (List Char × List Char)
  precio_min : Option ℚ
  precio_max : Option ℚ
  ahorro : ℚ
deriving DecidableEq

/-- Build the row of one group, lines 136-157 of
src/scripts/consolidar_visible.py: min, max and rounded savings over
precios_validos when that list is non-empty, otherwise None/None/0. -/
def mkFila (g : Group) : Fila :=
  let ps := precios_validos g
  { producto := g.nombre_ref
    ean := g.ean_ref
    precios := farmacias_conocidas.map fun f => (f, dget g.precios f)
    stocks := farmacias_conocidas.map fun f => (f, (dget g.stocks f).getD false)
    urls := farmacias_conocidas.map fun f => (f, (dget g.urls f).getD [])
    precio_min := listMin ps
    precio_max := listMax ps
    ahorro :=
      match listMin ps, listMax ps with
      | some pm, some pM => round2 (pM - pm)
      | _, _ => 0 }

/-- The consolidated table, lines 131-163 of src/scripts/consolidar_visible.py:
one row is appended per group, unconditionally. Rows appear in group insertion
order; the final in-place sort by savings descending (line 166) only permutes
them and is not modelled. -/
def tabla_consolidada (grupos : List (List Char × Group)) : List Fila :=
  grupos.map fun kg => mkFila kg.2

/-- The paging loop of src/scripts/consolidar_visible.py main, lines 81-120:
while the offset is below the reported total, fetch LIMIT batch OFFSET offset
(on the row list this is drop offset, take batch), stop on an empty page,
otherwise keep the page and advance the offset by the batch size. The source
hardcodes batch_size = 10000; the batch size is a parameter here, as in the
page_size contract the spec states for the driver. -/
def pageLoop (db : List Obs) (total batch : Nat) (hb : 0 < batch) (offset : Nat) :
    List (List Obs) :=
  if _h : offset < total then
    let rows := (db.drop offset).take batch
    if rows.isEmpty then [] else rows :: pageLoop db total batch hb (offset + batch)
  else []
termination_by total - offset
decreasing_by simp_wf; omega

/-- The pages the driver fetches for a source whose reported total is the
row count of the feed itself (the count query of lines 32-43 counts the same
join the page query reads). -/
def drive (db : List Obs) (batch : Nat) (hb : 0 < batch) : List (List Obs) :=
  pageLoop db db.length batch hb 0

/-- The aggregator state after the paged run: each fetched page is folded
into the running state in order, as the inner for-loop of lines 91-118 does. -/
def driveState (db : List Obs) (batch : Nat) (hb : 0 < batch) :
    List (List Char × Group) :=
  (drive db batch hb).foldl (fun st page => page.foldl stepObs st) []

/-! Concrete observations used to evaluate the pipeline at specific inputs. -/

/-- DosFarma lists the product at 3 euros, out of stock. -/
def oOut3 : Obs :=
  { farmacia := "DosFarma".data, nombre := "Ibuprofeno 600".data,
    url := "https://dosfarma/ibu".data, ean := some "8412345678901".data,
    precio := some 3, en_stock := false }

/-- DosFarma lists the same product at 5 euros, in stock. -/
def oIn5 : Obs :=
  { farmacia := "DosFarma".data, nombre := "Ibuprofeno 600".data,
    url := "https://dosfarma/ibu2".data, ean := some "8412345678901".data,
    precio := some 5, en_stock := true }

/-- DosFarma, 5 euros, out of stock. -/
def oOut5 : Obs :=
  { farmacia := "DosFarma".data, nombre := "Ibuprofeno 600".data,
    url := "https://dosfarma/ibu3".data, ean := some "8412345678901".data,
    precio := some 5, en_stock := false }

/-- DosFarma, 4 euros, out of stock. -/
def oOut4 : Obs :=
  { farmacia := "DosFarma".data, nombre := "Ibuprofeno 600".data,
    url := "https://dosfarma/ibu4".data, ean := some "8412345678901".data,
    precio := some 4, en_stock := false }

/-- DosFarma, 6 euros, in stock. -/
def oIn6 : Obs :=
  { farmacia := "DosFarma".data, nombre := "Ibuprofeno 600".data,
    url := "https://dosfarma/ibu6".data, ean := some "8412345678901".data,
    precio := some 6, en_stock := true }

/-- DosFarma, 2 euros, in stock. -/
def oIn2 : Obs :=
  { farmacia := "DosFarma".data, nombre := "Ibuprofeno 600".data,
    url := "https://dosfarma/ibu7".data, ean := some "8412345678901".data,
    precio := some 2, en_stock := true }

/-- FarmaciasDirect lists the same product at 3 euros, in stock. -/
def oDirectIn3 : Obs :=
  { farmacia := "FarmaciasDirect".data, nombre := "Ibuprofeno 600".data,
    url := "https://fdirect/ibu".data, ean := some "8412345678901".data,
    precio := some 3, en_stock := true }

/-- An observation with a NULL price and an empty url. -/
def oNullPrecio : Obs :=
  { farmacia := "DosFarma".data, nombre := "Producto Sin Precio Larguisimo".data,
    url := [], ean := none, precio := none, en_stock := true }

/-- An observation with an empty url but a present price. -/
def oEmptyUrl : Obs :=
  { farmacia := "DosFarma".data, nombre := "Producto Sin URL".data,
    url := [], ean := none, precio := some 2, en_stock := true }

/-! Dictionary lemmas. -/

theorem dget_dset_self {α : Type} (m : List (List Char × α)) (k : List Char) (v : α) :
    dget (dset m k v) k = some v := by
  induction m with
  | nil => simp [dget, dset]
  | cons kv m ih =>
    obtain ⟨k0, w⟩ := kv
    by_cases h : k = k0
    · simp [dget, dset, h]
    · simp [dget, dset, h, ih]

theorem dset_cons_eq {α : Type} (m : List (List Char × α)) (k : List Char) (w : α)
    (q : List Char) (v : α) (h : q = k) : dset ((k, w) :: m) q v = (q, v) :: m := by
  rw [dset, if_pos h]

theorem dset_cons_ne {α : Type} (m : List (List Char × α)) (k : List Char) (w : α)
    (q : List Char) (v : α) (h : q ≠ k) :
    dset ((k, w) :: m) q v = (k, w) :: dset m q v := by
  rw [dset, if_neg h]

theorem dget_dset_ne {α : Type} (m : List (List Char × α)) (k q : List Char) (v : α)
    (h : q ≠ k) : dget (dset m k v) q = dget m q := by
  induction m with
  | nil => simp [dget, dset, h]
  | cons kv m ih =>
    obtain ⟨k0, w⟩ := kv
    by_cases hk : k = k0
    · subst hk
      simp [dget, dset, h]
    · by_cases hq : q = k0
      · simp [dget, dset, hk, hq]
      · simp [dget, dset, hk, hq, ih]

/-! The name and ean updates do not touch the per-pharmacy dictionaries,
and the price update does not touch the name and ean fields. -/

theorem updName_precios (g : Group) (n : List Char) : (updName g n).precios = g.precios := by
  unfold updName; split <;> rfl

theorem updName_urls (g : Group) (n : List Char) : (updName g n).urls = g.urls := by
  unfold updName; split <;> rfl

theorem updName_stocks (g : Group) (n : List Char) : (updName g n).stocks = g.stocks := by
  unfold updName; split <;> rfl

theorem updName_ean_ref (g : Group) (n : List Char) : (updName g n).ean_ref = g.ean_ref := by
  unfold updName; split <;> rfl

theorem updEan_precios (g : Group) (e : Option (List Char)) :
    (updEan g e).precios = g.precios := by
  cases e with
  | none => rfl
  | some x => simp only [updEan]; split <;> rfl

theorem updEan_urls (g : Group) (e : Option (List Char)) : (updEan g e).urls = g.urls := by
  cases e with
  | none => rfl
  | some x => simp only [updEan]; split <;> rfl

theorem updEan_stocks (g : Group) (e : Option (List Char)) :
    (updEan g e).stocks = g.stocks := by
  cases e with
  | none => rfl
  | some x => simp only [updEan]; split <;> rfl

theorem updPrecio_ean_ref (g : Group) (o : Obs) : (updPrecio g o).ean_ref = g.ean_ref := by
  unfold updPrecio
  (repeat' split) <;> rfl

/-! The four shapes the per-pharmacy update takes. -/

theorem updPrecio_unknown (g : Group) (o : Obs) (h : o.farmacia ∉ farmacias_conocidas) :
    updPrecio g o = g := by
  unfold updPrecio
  rw [if_neg h]

theorem updPrecio_noPrice (g : Group) (o : Obs) (hp : o.precio = none) :
    updPrecio g o = g := by
  unfold updPrecio
  split
  · simp only [hp]
  · rfl

theorem updPrecio_new (g : Group) (o : Obs) (p : ℚ)
    (hmem : o.farmacia ∈ farmacias_conocidas) (hp : o.precio = some p)
    (hd : dget g.precios o.farmacia = none) :
    updPrecio g o =
      { g with precios := dset g.precios o.farmacia p,
               urls := dset g.urls o.farmacia o.url,
               stocks := dset g.stocks o.farmacia o.en_stock } := by
  unfold updPrecio
  rw [if_pos hmem]
  simp only [hp, hd]

theorem updPrecio_known (g : Group) (o : Obs) (p pa : ℚ)
    (hmem : o.farmacia ∈ farmacias_conocidas) (hp : o.precio = some p)
    (hd : dget g.precios o.farmacia = some pa) :
    updPrecio g o =
      if o.en_stock = true ∧ p < pa then
        { g with precios := dset g.precios o.farmacia p,
                 urls := dset g.urls o.farmacia o.url,
                 stocks := dset g.stocks o.farmacia o.en_stock }
      else g := by
  unfold updPrecio
  rw [if_pos hmem]
  simp only [hp, hd]

/-! Reading the state after one step. -/

theorem getG_step_self (G : List (List Char × Group)) (o : Obs) :
    getG (stepObs G o) (match_key o.ean o.nombre) =
      updGroup (getG G (match_key o.ean o.nombre)) o := by
  unfold stepObs getG
  rw [dget_dset_self]
  rfl

theorem getG_step_ne (G : List (List Char × Group)) (o : Obs) (k : List Char)
    (h : k ≠ match_key o.ean o.nombre) : getG (stepObs G o) k = getG G k := by
  unfold stepObs getG
  rw [dget_dset_ne _ _ _ _ h]

/-- The name and ean updates leave the price dictionary alone, so the price
dictionary a step works on is the one already stored. -/
theorem updGroup_precios_pre (g : Group) (o : Obs) :
    (updEan (updName g o.nombre) o.ean).precios = g.precios := by
  rw [updEan_precios, updName_precios]

/-- The group update never raises a stored per-pharmacy price: the entry
survives and its new value is bounded by the old one. -/
theorem updGroup_precios_le (g : Group) (o : Obs) (s : List Char) (p : ℚ)
    (h : dget g.precios s = some p) :
    ∃ q, dget (updGroup g o).precios s = some q ∧ q ≤ p := by
  unfold updGroup
  have hg2 : (updEan (updName g o.nombre) o.ean).precios = g.precios :=
    updGroup_precios_pre _ _
  by_cases hmem : o.farmacia ∈ farmacias_conocidas
  · cases hp : o.precio with
    | none =>
      rw [updPrecio_noPrice _ _ hp, hg2]
      exact ⟨p, h, le_refl p⟩
    | some pn =>
      by_cases hs : s = o.farmacia
      · subst hs
        have hd : dget (updEan (updName g o.nombre) o.ean).precios o.farmacia = some p := by
          rw [hg2]; exact h
        rw [updPrecio_known _ _ pn p hmem hp hd]
        by_cases hc : o.en_stock = true ∧ pn < p
        · rw [if_pos hc]
          refine ⟨pn, ?_, le_of_lt hc.2⟩
          simpa using dget_dset_self _ o.farmacia pn
        · rw [if_neg hc, hg2]
          exact ⟨p, h, le_refl p⟩
      · cases hd : dget (updEan (updName g o.nombre) o.ean).precios o.farmacia with
        | none =>
          rw [updPrecio_new _ _ pn hmem hp hd]
          refine ⟨p, ?_, le_refl p⟩
          simpa [dget_dset_ne _ _ _ _ hs, hg2] using h
        | some pa =>
          rw [updPrecio_known _ _ pn pa hmem hp hd]
          by_cases hc : o.en_stock = true ∧ pn < pa
          · rw [if_pos hc]
            refine ⟨p, ?_, le_refl p⟩
            simpa [dget_dset_ne _ _ _ _ hs, hg2] using h
          · rw [if_neg hc, hg2]
            exact ⟨p, h, le_refl p⟩
  · rw [updPrecio_unknown _ _ hmem, hg2]
    exact ⟨p, h, le_refl p⟩

/-- One step never raises a stored per-pharmacy price. -/
theorem step_precios_le (G : List (List Char × Group)) (o : Obs) (k s : List Char)
    (p : ℚ) (h : dget (getG G k).precios s = some p) :
    ∃ q, dget (getG (stepObs G o) k).precios s = some q ∧ q ≤ p := by
  by_cases hk : k = match_key o.ean o.nombre
  · rw [hk] at h ⊢
    rw [getG_step_self]
    exact updGroup_precios_le _ o s p h
  · rw [getG_step_ne _ _ _ hk]
    exact ⟨p, h, le_refl p⟩

/-- Folding any further observations never raises a stored per-pharmacy
price. -/
theorem fold_precios_le (l : List Obs) (G : List (List Char × Group)) (k s : List Char)
    (p : ℚ) (h : dget (getG G k).precios s = some p) :
    ∃ q, dget (getG (l.foldl stepObs G) k).precios s = some q ∧ q ≤ p := by
  induction l generalizing G p with
  | nil => exact ⟨p, h, le_refl p⟩
  | cons o l ih =>
    obtain ⟨q1, hq1, hle1⟩ := step_precios_le G o k s p h
    obtain ⟨q, hq, hle⟩ := ih (stepObs G o) q1 hq1
    exact ⟨q, hq, le_trans hle hle1⟩

/-! Minimum and maximum of a price list (Python min/max). -/

theorem foldl_min_le_seed (ps : List ℚ) (a : ℚ) : ps.foldl min a ≤ a := by
  induction ps generalizing a with
  | nil => exact le_refl a
  | cons b ps ih => exact le_trans (ih (min a b)) (min_le_left a b)

theorem foldl_min_le_of_mem (ps : List ℚ) (a x : ℚ) (hx : x ∈ ps) :
    ps.foldl min a ≤ x := by
  induction ps generalizing a with
  | nil => cases hx
  | cons b ps ih =>
    rcases List.mem_cons.mp hx with hb | hps
    · subst hb
      exact le_trans (foldl_min_le_seed ps (min a x)) (min_le_right a x)
    · exact ih (min a b) hps

theorem foldl_min_mem (ps : List ℚ) (a : ℚ) : ps.foldl min a ∈ a :: ps := by
  induction ps generalizing a with
  | nil => exact List.mem_singleton.mpr rfl
  | cons b ps ih =>
    have h := ih (min a b)
    rcases List.mem_cons.mp h with h1 | h2
    · rcases min_choice a b with hm | hm
      · exact List.mem_cons.mpr (Or.inl (h1.trans hm))
      · exact List.mem_cons.mpr (Or.inr (List.mem_cons.mpr (Or.inl (h1.trans hm))))
    · exact List.mem_cons.mpr (Or.inr (List.mem_cons.mpr (Or.inr h2)))

theorem foldl_max_seed_le (ps : List ℚ) (a : ℚ) : a ≤ ps.foldl max a := by
  induction ps generalizing a with
  | nil => exact le_refl a
  | cons b ps ih => exact le_trans (le_max_left a b) (ih (max a b))

theorem foldl_max_le_of_mem (ps : List ℚ) (a x : ℚ) (hx : x ∈ ps) :
    x ≤ ps.foldl max a := by
  induction ps generalizing a with
  | nil => cases hx
  | cons b ps ih =>
    rcases List.mem_cons.mp hx with hb | hps
    · subst hb
      exact le_trans (le_max_right a x) (foldl_max_seed_le ps (max a x))
    · exact ih (max a b) hps

theorem foldl_max_mem (ps : List ℚ) (a : ℚ) : ps.foldl max a ∈ a :: ps := by
  induction ps generalizing a with
  | nil => exact List.mem_singleton.mpr rfl
  | cons b ps ih =>
    have h := ih (max a b)
    rcases List.mem_cons.mp h with h1 | h2
    · rcases max_choice a b with hm | hm
      · exact List.mem_cons.mpr (Or.inl (h1.trans hm))
      · exact List.mem_cons.mpr (Or.inr (List.mem_cons.mpr (Or.inl (h1.trans hm))))
    · exact List.mem_cons.mpr (Or.inr (List.mem_cons.mpr (Or.inr h2)))

theorem listMin_eq_none (l : List ℚ) : listMin l = none ↔ l = [] := by
  cases l <;> simp [listMin]

theorem listMin_mem (l : List ℚ) (m : ℚ) (h : listMin l = some m) : m ∈ l := by
  cases l with
  | nil => cases h
  | cons p ps =>
    have : ps.foldl min p = m := by simpa [listMin] using h
    exact this ▸ foldl_min_mem ps p

theorem listMin_le (l : List ℚ) (m : ℚ) (h : listMin l = some m) :
    ∀ x ∈ l, m ≤ x := by
  cases l with
  | nil => cases h
  | cons p ps =>
    have hm : ps.foldl min p = m := by simpa [listMin] using h
    intro x hx
    rcases List.mem_cons.mp hx with h1 | h2
    · exact hm ▸ h1 ▸ foldl_min_le_seed ps p
    · exact hm ▸ foldl_min_le_of_mem ps p x h2

theorem listMax_eq_none (l : List ℚ) : listMax l = none ↔ l = [] := by
  cases l <;> simp [listMax]

theorem listMax_mem (l : List ℚ) (m : ℚ) (h : listMax l = some m) : m ∈ l := by
  cases l with
  | nil => cases h
  | cons p ps =>
    have : ps.foldl max p = m := by simpa [listMax] using h
    exact this ▸ foldl_max_mem ps p

theorem listMax_ge (l : List ℚ) (m : ℚ) (h : listMax l = some m) :
    ∀ x ∈ l, x ≤ m := by
  cases l with
  | nil => cases h
  | cons p ps =>
    have hm : ps.foldl max p = m := by simpa [listMax] using h
    intro x hx
    rcases List.mem_cons.mp hx with h1 | h2
    · exact hm ▸ h1 ▸ foldl_max_seed_le ps p
    · exact hm ▸ foldl_max_le_of_mem ps p x h2

theorem listMin_perm (l₁ l₂ : List ℚ) (h : l₁.Perm l₂) : listMin l₁ = listMin l₂ := by
  cases h1 : listMin l₁ with
  | none =>
    have : l₂ = [] := by
      have h1' := (listMin_eq_none l₁).mp h1
      subst h1'
      exact h.symm.eq_nil
    simp [this, listMin]
  | some m₁ =>
    cases h2 : listMin l₂ with
    | none =>
      have h2' := (listMin_eq_none l₂).mp h2
      subst h2'
      have : l₁ = [] := h.eq_nil
      rw [this] at h1
      cases h1
    | some m₂ =>
      have hm₁ : m₁ ∈ l₂ := h.subset (listMin_mem l₁ m₁ h1)
      have hm₂ : m₂ ∈ l₁ := h.symm.subset (listMin_mem l₂ m₂ h2)
      have le₁ : m₁ ≤ m₂ := listMin_le l₁ m₁ h1 m₂ hm₂
      have le₂ : m₂ ≤ m₁ := listMin_le l₂ m₂ h2 m₁ hm₁
      rw [le_antisymm le₁ le₂]

/-! Behaviour of the per-pharmacy update on in-stock observations. -/

/-- An in-stock observation with a price combines with an existing entry of a
known pharmacy by taking the minimum price; a stored in-stock mark stays. -/
theorem updGroup_inStock (g : Group) (o : Obs) (q p : ℚ)
    (hmem : o.farmacia ∈ farmacias_conocidas) (hp : o.precio = some p)
    (hst : o.en_stock = true)
    (hq : dget g.precios o.farmacia = some q)
    (hsq : dget g.stocks o.farmacia = some true) :
    dget (updGroup g o).precios o.farmacia = some (min q p) ∧
      dget (updGroup g o).stocks o.farmacia = some true := by
  unfold updGroup
  have hg2p : (updEan (updName g o.nombre) o.ean).precios = g.precios :=
    updGroup_precios_pre _ _
  have hg2s : (updEan (updName g o.nombre) o.ean).stocks = g.stocks := by
    rw [updEan_stocks, updName_stocks]
  have hd : dget (updEan (updName g o.nombre) o.ean).precios o.farmacia = some q := by
    rw [hg2p]; exact hq
  rw [updPrecio_known _ _ p q hmem hp hd]
  by_cases hc : o.en_stock = true ∧ p < q
  · rw [if_pos hc]
    constructor
    · have hmin : min q p = p := min_eq_right (le_of_lt hc.2)
      rw [hmin]
      simpa using dget_dset_self _ o.farmacia p
    · have := dget_dset_self (updEan (updName g o.nombre) o.ean).stocks o.farmacia o.en_stock
      simpa [hst] using this
  · rw [if_neg hc]
    have hnp : ¬ p < q := fun hlt => hc ⟨hst, hlt⟩
    have hmin : min q p = q := min_eq_left (le_of_not_lt hnp)
    exact ⟨by rw [hmin, hg2p]; exact hq, by rw [hg2s]; exact hsq⟩

/-- An in-stock observation with a price lands in an empty slot of a known
pharmacy as (price, in stock). -/
theorem updGroup_inStock_new (g : Group) (o : Obs) (p : ℚ)
    (hmem : o.farmacia ∈ farmacias_conocidas) (hp : o.precio = some p)
    (hst : o.en_stock = true) (hq : dget g.precios o.farmacia = none) :
    dget (updGroup g o).precios o.farmacia = some p ∧
      dget (updGroup g o).stocks o.farmacia = some true := by
  unfold updGroup
  have hg2p : (updEan (updName g o.nombre) o.ean).precios = g.precios :=
    updGroup_precios_pre _ _
  have hd : dget (updEan (updName g o.nombre) o.ean).precios o.farmacia = none := by
    rw [hg2p]; exact hq
  rw [updPrecio_new _ _ p hmem hp hd]
  constructor
  · simpa using dget_dset_self _ o.farmacia p
  · have := dget_dset_self (updEan (updName g o.nombre) o.ean).stocks o.farmacia o.en_stock
    simpa [hst] using this

/-- Folding a stream of in-stock observations of one key and one known
pharmacy over a state already holding an in-stock entry keeps the entry in
stock and drives the price to the running minimum. -/
theorem fold_inStock_char (k s : List Char) (hsmem : s ∈ farmacias_conocidas) :
    ∀ (l : List Obs),
      (∀ o ∈ l, match_key o.ean o.nombre = k ∧ o.farmacia = s ∧ o.en_stock = true ∧
        o.precio.isSome = true) →
      ∀ (G : List (List Char × Group)) (q : ℚ),
        dget (getG G k).precios s = some q → dget (getG G k).stocks s = some true →
        dget (getG (l.foldl stepObs G) k).precios s =
            some ((l.filterMap Obs.precio).foldl min q) ∧
          dget (getG (l.foldl stepObs G) k).stocks s = some true := by
  intro l
  induction l with
  | nil =>
    intro _ G q hq hs
    simpa using ⟨hq, hs⟩
  | cons o l ih =>
    intro hl G q hq hs
    obtain ⟨hk, hsf, hst, hps⟩ := hl o (List.mem_cons_self o l)
    obtain ⟨p, hp⟩ := Option.isSome_iff_exists.mp hps
    have hm : o.farmacia ∈ farmacias_conocidas := by rw [hsf]; exact hsmem
    have hq' : dget (getG G k).precios o.farmacia = some q := by rw [hsf]; exact hq
    have hs' : dget (getG G k).stocks o.farmacia = some true := by rw [hsf]; exact hs
    obtain ⟨hP, hS⟩ := updGroup_inStock (getG G k) o q p hm hp hst hq' hs'
    have hgs : getG (stepObs G o) k = updGroup (getG G k) o := by
      rw [← hk]; exact getG_step_self G o
    have hP' : dget (getG (stepObs G o) k).precios s = some (min q p) := by
      rw [hgs, ← hsf]; exact hP
    have hS' : dget (getG (stepObs G o) k).stocks s = some true := by
      rw [hgs, ← hsf]; exact hS
    have hrest := ih (fun o' ho' => hl o' (List.mem_cons_of_mem o ho'))
      (stepObs G o) (min q p) hP' hS'
    simpa [List.filterMap_cons, hp] using hrest

/-- Aggregating a stream of in-stock observations of one key and one known
pharmacy from scratch stores the minimum price and the in-stock mark. -/
theorem aggregate_inStock_char (l : List Obs) (k s : List Char)
    (hsmem : s ∈ farmacias_conocidas)
    (hl : ∀ o ∈ l, match_key o.ean o.nombre = k ∧ o.farmacia = s ∧ o.en_stock = true ∧
      o.precio.isSome = true) :
    dget (getG (aggregate l) k).precios s = listMin (l.filterMap Obs.precio) ∧
      dget (getG (aggregate l) k).stocks s = (if l = [] then none else some true) := by
  cases l with
  | nil => simp [aggregate, getG, dget, emptyGroup, listMin]
  | cons o t =>
    obtain ⟨hk, hsf, hst, hps⟩ := hl o (List.mem_cons_self o t)
    obtain ⟨p, hp⟩ := Option.isSome_iff_exists.mp hps
    have hm : o.farmacia ∈ farmacias_conocidas := by rw [hsf]; exact hsmem
    have hnil : dget (emptyGroup).precios o.farmacia = none := rfl
    obtain ⟨hP, hS⟩ := updGroup_inStock_new emptyGroup o p hm hp hst hnil
    have hgs : getG (stepObs [] o) k = updGroup emptyGroup o := by
      rw [← hk]; exact getG_step_self [] o
    have hP' : dget (getG (stepObs [] o) k).precios s = some p := by
      rw [hgs, ← hsf]; exact hP
    have hS' : dget (getG (stepObs [] o) k).stocks s = some true := by
      rw [hgs, ← hsf]; exact hS
    have hrest := fold_inStock_char k s hsmem t
      (fun o' ho' => hl o' (List.mem_cons_of_mem o ho')) (stepObs [] o) p hP' hS'
    have hagg : aggregate (o :: t) = t.foldl stepObs (stepObs [] o) := rfl
    constructor
    · rw [hagg]
      rw [hrest.1]
      simp [List.filterMap_cons, hp, listMin]
    · rw [hagg, hrest.2]
      simp

/-- C2 counterexample: two out-of-stock observations of the same key and
pharmacy with prices 5 and 4. Fed as [5, 4] the aggregator stores 5 (an
out-of-stock incomer never replaces); fed as [4, 5] it stores 4. The final
selected pair depends on the order. -/
theorem aggregation_order_dependent :
    dget (getG (aggregate [oOut5, oOut4]) "8412345678901".data).precios "DosFarma".data ≠
      dget (getG (aggregate [oOut4, oOut5]) "8412345678901".data).precios "DosFarma".data := by
  decide

/-- C2 (amended): order independence does hold for observation sets that are
entirely in stock (with prices): for one match key and one known source, any
two orders of the same observations yield the same final selected
(price, in_stock) pair — the minimum price, marked in stock. With an
out-of-stock observation in the set the result can depend on the order. -/
theorem aggregation_order_independent_inStock
    (l₁ l₂ : List Obs) (k s : List Char)
    (hperm : l₁.Perm l₂) (hsmem : s ∈ farmacias_conocidas)
    (hl : ∀ o ∈ l₁, match_key o.ean o.nombre = k ∧ o.farmacia = s ∧ o.en_stock = true ∧
      o.precio.isSome = true) :
    dget (getG (aggregate l₁) k).precios s = dget (getG (aggregate l₂) k).precios s ∧
      dget (getG (aggregate l₁) k).stocks s = dget (getG (aggregate l₂) k).stocks s := by
  have hl₂ : ∀ o ∈ l₂, match_key o.ean o.nombre = k ∧ o.farmacia = s ∧ o.en_stock = true ∧
      o.precio.isSome = true := fun o ho => hl o (hperm.symm.subset ho)
  obtain ⟨hp1, hs1⟩ := aggregate_inStock_char l₁ k s hsmem hl
  obtain ⟨hp2, hs2⟩ := aggregate_inStock_char l₂ k s hsmem hl₂
  have hnil : (l₁ = []) ↔ (l₂ = []) := by
    constructor
    · intro h; subst h; exact hperm.symm.eq_nil
    · intro h; subst h; exact hperm.eq_nil
  constructor
  · rw [hp1, hp2, listMin_perm _ _ (hperm.filterMap Obs.precio)]
  · rw [hs1, hs2]
    by_cases h1 : l₁ = []
    · rw [if_pos h1, if_pos (hnil.mp h1)]
    · rw [if_neg h1, if_neg (fun h2 => h1 (hnil.mpr h2))]

/-- C2 witness: the in-stock observations at 5 and 2 euros give the same
stored pair in either order. -/
theorem aggregation_order_independent_inStock_witness :
    (dget (getG (aggregate [oIn5, oIn2]) "8412345678901".data).precios "DosFarma".data =
        dget (getG (aggregate [oIn2, oIn5]) "8412345678901".data).precios "DosFarma".data) ∧
      (dget (getG (aggregate [oIn5, oIn2]) "8412345678901".data).stocks "DosFarma".data =
        dget (getG (aggregate [oIn2, oIn5]) "8412345678901".data).stocks "DosFarma".data) :=
  aggregation_order_independent_inStock [oIn5, oIn2] [oIn2, oIn5]
    "8412345678901".data "DosFarma".data (List.Perm.swap oIn2 oIn5 [])
    (by decide) (by decide)

/-- C3 counterexample: the group holds DosFarma at 5 euros (best entry, out
of stock) and FarmaciasDirect at 3 euros (in stock). The claim's extrema over
all non-null vendor prices would be min 3, max 5, savings 2; the consolidator
computes them over in-stock prices only, giving max 3 and savings 0. -/
theorem mkFila_ahorro (g : Group) :
    (mkFila g).ahorro =
      match listMin (precios_validos g), listMax (precios_validos g) with
      | some pm, some pM => round2 (pM - pm)
      | _, _ => 0 := rfl

theorem round2_zero : round2 0 = 0 := by
  unfold round2 roundHalfEven
  norm_num

theorem extrema_ignore_outOfStock_prices :
    dget (getG (aggregate [oOut5, oDirectIn3]) "8412345678901".data).precios
        "DosFarma".data = some 5 ∧
      dget (getG (aggregate [oOut5, oDirectIn3]) "8412345678901".data).precios
        "FarmaciasDirect".data = some 3 ∧
      (mkFila (getG (aggregate [oOut5, oDirectIn3]) "8412345678901".data)).precio_max
        = some 3 ∧
      (mkFila (getG (aggregate [oOut5, oDirectIn3]) "8412345678901".data)).precio_max
        ≠ some 5 ∧
      (mkFila (getG (aggregate [oOut5, oDirectIn3]) "8412345678901".data)).ahorro = 0 := by
  refine ⟨by decide, by decide, by decide, by decide, ?_⟩
  have hps : precios_validos (getG (aggregate [oOut5, oDirectIn3]) "8412345678901".data)
      = [3] := by decide
  rw [mkFila_ahorro, hps]
  show round2 ((3 : ℚ) - 3) = 0
  have h : (3 : ℚ) - 3 = 0 := by norm_num
  rw [h, round2_zero]

/-- C3 (amended): price_min and price_max are the extrema over the
per-vendor best prices of the vendors whose stored entry is in stock
(precios_validos); savings is round(price_max - price_min, 2) over that set
when it is non-empty, and min, max and savings are None, None, 0 when no
vendor has an in-stock price. -/
theorem fila_extrema_over_inStock (g : Group) :
    (precios_validos g = [] →
      (mkFila g).precio_min = none ∧ (mkFila g).precio_max = none ∧
        (mkFila g).ahorro = 0) ∧
    (∀ pm pM, (mkFila g).precio_min = some pm → (mkFila g).precio_max = some pM →
      pm ∈ precios_validos g ∧ pM ∈ precios_validos g ∧
        (∀ q ∈ precios_validos g, pm ≤ q ∧ q ≤ pM) ∧
        (mkFila g).ahorro = round2 (pM - pm)) ∧
    (precios_validos g ≠ [] →
      ∃ pm pM, (mkFila g).precio_min = some pm ∧ (mkFila g).precio_max = some pM) := by
  have hmin : (mkFila g).precio_min = listMin (precios_validos g) := rfl
  have hmax : (mkFila g).precio_max = listMax (precios_validos g) := rfl
  refine ⟨?_, ?_, ?_⟩
  · intro h
    refine ⟨?_, ?_, ?_⟩
    · rw [hmin, h]; rfl
    · rw [hmax, h]; rfl
    · show (mkFila g).ahorro = 0
      unfold mkFila
      rw [h]
      rfl
  · intro pm pM hpm hpM
    have h1 : listMin (precios_validos g) = some pm := by rw [← hmin]; exact hpm
    have h2 : listMax (precios_validos g) = some pM := by rw [← hmax]; exact hpM
    refine ⟨listMin_mem _ _ h1, listMax_mem _ _ h2, ?_, ?_⟩
    · intro q hq
      exact ⟨listMin_le _ _ h1 q hq, listMax_ge _ _ h2 q hq⟩
    · show (mkFila g).ahorro = round2 (pM - pm)
      unfold mkFila
      simp only [h1, h2]
  · intro h
    cases hps : precios_validos g with
    | nil => exact absurd hps h
    | cons p l =>
      refine ⟨l.foldl min p, l.foldl max p, ?_, ?_⟩
      · rw [hmin, hps]; rfl
      · rw [hmax, hps]; rfl

/-! Keys of the aggregator state. -/

theorem map_fst_dset {α : Type} (m : List (List Char × α)) (k : List Char) (v : α)
    (q : List Char) : q ∈ (dset m k v).map Prod.fst ↔ q = k ∨ q ∈ m.map Prod.fst := by
  induction m with
  | nil =>
    show q ∈ [k] ↔ q = k ∨ q ∈ ([] : List (List Char × α)).map Prod.fst
    simp only [List.map_nil, List.mem_singleton, List.not_mem_nil, or_false]
  | cons kv m ih =>
    obtain ⟨k0, w⟩ := kv
    by_cases h : k = k0
    · subst h
      rw [dset_cons_eq m k w k v rfl]
      simp only [List.map_cons, List.mem_cons]
      tauto
    · rw [dset_cons_ne m k0 w k v h]
      simp only [List.map_cons, List.mem_cons, ih]
      tauto

theorem nodup_fst_dset {α : Type} (m : List (List Char × α)) (k : List Char) (v : α)
    (h : (m.map Prod.fst).Nodup) : ((dset m k v).map Prod.fst).Nodup := by
  induction m with
  | nil =>
    show ([k] : List (List Char)).Nodup
    exact List.nodup_singleton k
  | cons kv m ih =>
    obtain ⟨k0, w⟩ := kv
    simp only [List.map_cons, List.nodup_cons] at h
    by_cases hk : k = k0
    · subst hk
      rw [dset_cons_eq m k w k v rfl]
      simp only [List.map_cons, List.nodup_cons]
      exact h
    · rw [dset_cons_ne m k0 w k v hk]
      simp only [List.map_cons, List.nodup_cons]
      refine ⟨?_, ih h.2⟩
      rw [map_fst_dset]
      rintro (h1 | h2)
      · exact hk h1.symm
      · exact h.1 h2

theorem aggregate_keys_mem_fold (l : List Obs) :
    ∀ (G : List (List Char × Group)) (k : List Char),
      k ∈ (l.foldl stepObs G).map Prod.fst ↔
        k ∈ G.map Prod.fst ∨ ∃ o ∈ l, match_key o.ean o.nombre = k := by
  induction l with
  | nil =>
    intro G k
    simp only [List.foldl_nil, List.not_mem_nil, false_and, exists_false, or_false]
  | cons o l ih =>
    intro G k
    have hstep : ∀ q, q ∈ (stepObs G o).map Prod.fst ↔
        q = match_key o.ean o.nombre ∨ q ∈ G.map Prod.fst := by
      intro q; exact map_fst_dset G (match_key o.ean o.nombre) _ q
    simp only [List.foldl_cons, ih (stepObs G o) k, hstep k, List.mem_cons]
    constructor
    · rintro ((h1 | h2) | h3)
      · exact Or.inr ⟨o, Or.inl rfl, h1.symm⟩
      · exact Or.inl h2
      · obtain ⟨o', ho', he⟩ := h3
        exact Or.inr ⟨o', Or.inr ho', he⟩
    · rintro (h1 | ⟨o', (ho' | ho'), he⟩)
      · exact Or.inl (Or.inr h1)
      · subst ho'; exact Or.inl (Or.inl he.symm)
      · exact Or.inr ⟨o', ho', he⟩

theorem aggregate_keys_nodup_fold (l : List Obs) :
    ∀ (G : List (List Char × Group)), (G.map Prod.fst).Nodup →
      ((l.foldl stepObs G).map Prod.fst).Nodup := by
  induction l with
  | nil => intro G h; exact h
  | cons o l ih =>
    intro G h
    exact ih (stepObs G o) (nodup_fst_dset G (match_key o.ean o.nombre) _ h)

/-- C4 counterexample: a single observation with a NULL price produces a
group with zero valid prices, yet the consolidated table still contains one
row for it (with no per-vendor price and no extrema). The claim says such a
key must be absent. -/
theorem fila_sin_precios_emitted :
    (tabla_consolidada (aggregate [oNullPrecio])).length = 1 ∧
      (∀ f ∈ tabla_consolidada (aggregate [oNullPrecio]),
        f.precio_min = none ∧ ∀ fp ∈ f.precios, fp.2 = none) := by
  decide

/-- C4 (amended): the consolidator's output contains exactly one row per
distinct match key seen among the observations — including keys with zero
valid prices, whose row carries None extrema and savings 0 rather than being
dropped. -/
theorem tabla_one_row_per_key (l : List Obs) :
    ((aggregate l).map Prod.fst).Nodup ∧
      (∀ k, k ∈ (aggregate l).map Prod.fst ↔ ∃ o ∈ l, match_key o.ean o.nombre = k) ∧
      (tabla_consolidada (aggregate l)).length = (aggregate l).length := by
  refine ⟨aggregate_keys_nodup_fold l [] List.nodup_nil, ?_,
    List.length_map _ _⟩
  intro k
  have h := aggregate_keys_mem_fold l [] k
  simpa only [List.map_nil, List.not_mem_nil, false_or] using h

/-- C1 counterexample: DosFarma first reports the product at 3 euros out of
stock, then at 5 euros in stock. The claim says the incoming in-stock
observation always replaces the stored out-of-stock one, whatever the prices;
the aggregator in fact keeps the 3-euro out-of-stock entry. -/
theorem inStock_not_always_replacing :
    dget (getG (aggregate [oOut3, oIn5]) "8412345678901".data).precios "DosFarma".data
        = some 3 ∧
      dget (getG (aggregate [oOut3, oIn5]) "8412345678901".data).stocks "DosFarma".data
        = some false := by
  decide

/-- C1 (amended): when a per-pharmacy entry is already stored, the incoming
observation with price p replaces the stored price pa exactly when it is in
stock and strictly cheaper; in particular an in-stock observation replaces a
stored out-of-stock one only when its price is strictly lower. -/
theorem best_por_farmacia_update_rule
    (G : List (List Char × Group)) (o : Obs) (p pa : ℚ)
    (hmem : o.farmacia ∈ farmacias_conocidas) (hp : o.precio = some p)
    (hd : dget (getG G (match_key o.ean o.nombre)).precios o.farmacia = some pa) :
    dget (getG (stepObs G o) (match_key o.ean o.nombre)).precios o.farmacia =
      some (if o.en_stock = true ∧ p < pa then p else pa) := by
  rw [getG_step_self]
  unfold updGroup
  have hd2 : dget (updEan (updName (getG G (match_key o.ean o.nombre)) o.nombre)
      o.ean).precios o.farmacia = some pa := by
    rw [updGroup_precios_pre]; exact hd
  rw [updPrecio_known _ _ p pa hmem hp hd2]
  by_cases hc : o.en_stock = true ∧ p < pa
  · rw [if_pos hc, if_pos hc]
    simpa using dget_dset_self _ o.farmacia p
  · rw [if_neg hc, if_neg hc]
    exact hd2

/-- C1 witness: with 3 euros out-of-stock stored, the incoming in-stock
5-euro observation leaves the stored price at 3 (the if-condition 5 < 3
fails). -/
theorem best_por_farmacia_update_rule_witness :
    dget (getG (stepObs (aggregate [oOut3]) oIn5) (match_key oIn5.ean oIn5.nombre)).precios
        oIn5.farmacia =
      some (if oIn5.en_stock = true ∧ (5 : ℚ) < 3 then 5 else 3) :=
  best_por_farmacia_update_rule (aggregate [oOut3]) oIn5 5 3 (by decide) (by decide)
    (by decide)

/-- C10: once a per-pharmacy price is stored for a match key, processing any
further observations never increases it, and whenever the stored value
changes it strictly decreases. -/
theorem precio_por_farmacia_never_increases
    (G : List (List Char × Group)) (k s : List Char) (p : ℚ) (l : List Obs)
    (h : dget (getG G k).precios s = some p) :
    ∃ q, dget (getG (l.foldl stepObs G) k).precios s = some q ∧ q ≤ p ∧
      (q ≠ p → q < p) := by
  obtain ⟨q, hq, hle⟩ := fold_precios_le l G k s p h
  exact ⟨q, hq, hle, fun hne => lt_of_le_of_ne hle hne⟩

/-- C10 witness: starting from the state that stores 3 euros for DosFarma,
processing a cheaper in-stock observation yields a stored price bounded by
3. -/
theorem precio_por_farmacia_never_increases_witness :
    ∃ q, dget (getG ([oIn2].foldl stepObs (aggregate [oOut3]))
        "8412345678901".data).precios "DosFarma".data = some q ∧ q ≤ 3 ∧
      (q ≠ 3 → q < 3) :=
  precio_por_farmacia_never_increases (aggregate [oOut3]) "8412345678901".data
    "DosFarma".data 3 [oIn2] (by decide)

/-! The reference EAN. -/

/-- An observation with a validating EAN has that EAN as its match key. -/
theorem match_key_of_valid (o : Obs) (h : is_valid_ean o.ean = true) :
    ∃ e, o.ean = some e ∧ match_key o.ean o.nombre = e := by
  cases he : o.ean with
  | none =>
    rw [he] at h
    exact absurd h (by decide)
  | some e =>
    refine ⟨e, rfl, ?_⟩
    rw [he] at h
    unfold match_key
    rw [if_pos h]
    rfl

/-- How one observation changes the reference EAN: a validating EAN
overwrites it, anything else leaves it. -/
theorem updGroup_ean_ref (g : Group) (o : Obs) :
    (updGroup g o).ean_ref =
      match o.ean with
      | some e => if is_valid_ean (some e) = true then e else g.ean_ref
      | none => g.ean_ref := by
  unfold updGroup
  rw [updPrecio_ean_ref]
  cases he : o.ean with
  | none =>
    show (updEan (updName g o.nombre) none).ean_ref = g.ean_ref
    exact updName_ean_ref g o.nombre
  | some e =>
    show (updEan (updName g o.nombre) (some e)).ean_ref =
      if is_valid_ean (some e) = true then e else g.ean_ref
    simp only [updEan]
    by_cases hv : is_valid_ean (some e) = true
    · rw [if_pos hv, if_pos hv]
    · rw [if_neg hv, if_neg hv]
      exact updName_ean_ref g o.nombre

/-- Any first valid EAN found for key k is k itself: a validating EAN is its
own match key, so observations of group k can only carry the EAN k. -/
theorem firstValidEanFor_eq_key (l : List Obs) (k e : List Char)
    (h : firstValidEanFor l k = some e) : e = k := by
  unfold firstValidEanFor at h
  cases hfind : l.find? (fun o => decide (match_key o.ean o.nombre = k) && is_valid_ean o.ean) with
  | none => rw [hfind] at h; cases h
  | some o =>
    rw [hfind] at h
    have hpred := List.find?_some hfind
    have hk : match_key o.ean o.nombre = k :=
      of_decide_eq_true ((Bool.and_eq_true _ _).mp hpred).1
    have hv : is_valid_ean o.ean = true := ((Bool.and_eq_true _ _).mp hpred).2
    obtain ⟨e2, he2, hke⟩ := match_key_of_valid o hv
    have hoe : o.ean = some e := h
    rw [hoe] at he2
    injection he2 with hh
    exact hh.trans (hke.symm.trans hk)

/-- The reference EAN after a fold: the first valid EAN of the stream for the
key, or the starting value when the stream has none. -/
theorem fold_ean_ref (l : List Obs) :
    ∀ (G : List (List Char × Group)) (k : List Char),
      (getG (l.foldl stepObs G) k).ean_ref =
        match firstValidEanFor l k with
        | some e => e
        | none => (getG G k).ean_ref := by
  induction l with
  | nil => intro G k; rfl
  | cons o l ih =>
    intro G k
    by_cases hp : (decide (match_key o.ean o.nombre = k) && is_valid_ean o.ean) = true
    · have hk : match_key o.ean o.nombre = k :=
        of_decide_eq_true ((Bool.and_eq_true _ _).mp hp).1
      have hv : is_valid_ean o.ean = true := ((Bool.and_eq_true _ _).mp hp).2
      obtain ⟨e, he, hke⟩ := match_key_of_valid o hv
      have hp2 : (fun o => decide (match_key o.ean o.nombre = k) && is_valid_ean o.ean) o
          = true := hp
      have hfind := @List.find?_cons_of_pos Obs
        (fun o => decide (match_key o.ean o.nombre = k) && is_valid_ean o.ean) o l hp2
      have hfirst : firstValidEanFor (o :: l) k = some e := by
        unfold firstValidEanFor
        rw [hfind]
        rw [Option.some_bind]
        exact he
      rw [hfirst, List.foldl_cons, ih (stepObs G o) k]
      cases hf : firstValidEanFor l k with
      | some e2 =>
        have he2 : e2 = k := firstValidEanFor_eq_key l k e2 hf
        have heK : e = k := hke.symm.trans hk
        rw [he2, heK]
      | none =>
        have hself : getG (stepObs G o) k = updGroup (getG G k) o := by
          rw [← hk]; exact getG_step_self G o
        rw [hself, updGroup_ean_ref, he]
        show (if is_valid_ean (some e) = true then e else (getG G k).ean_ref) = e
        rw [he] at hv
        rw [if_pos hv]
    · have hfalse : ¬ (fun o => decide (match_key o.ean o.nombre = k) && is_valid_ean o.ean) o
          = true := hp
      have hfind := @List.find?_cons_of_neg Obs
        (fun o => decide (match_key o.ean o.nombre = k) && is_valid_ean o.ean) o l hfalse
      have hfirst : firstValidEanFor (o :: l) k = firstValidEanFor l k := by
        unfold firstValidEanFor
        rw [hfind]
      rw [hfirst, List.foldl_cons, ih (stepObs G o) k]
      cases hf : firstValidEanFor l k with
      | some e2 => rfl
      | none =>
        show (getG (stepObs G o) k).ean_ref = (getG G k).ean_ref
        by_cases hk : k = match_key o.ean o.nombre
        · have hv : is_valid_ean o.ean = false := by
            cases hvv : is_valid_ean o.ean
            · rfl
            · exfalso
              apply hp
              rw [Bool.and_eq_true]
              exact ⟨decide_eq_true hk.symm, hvv⟩
          rw [hk, getG_step_self, updGroup_ean_ref]
          cases he : o.ean with
          | none => rfl
          | some e =>
            rw [he] at hv
            exact if_neg (by rw [hv]; exact Bool.false_ne_true)
        · rw [getG_step_ne G o k hk]

/-- C5: the reference EAN the aggregator ends with for a match key is exactly
the first valid EAN seen for that key (and the empty string when none is
seen): recording a valid EAN is first-seen stable, and no later observation
of the same key can overwrite it with a different valid EAN, because a
validating EAN is itself the match key, so all valid EANs under one key
coincide. -/
theorem ean_ref_first_seen (l : List Obs) (k : List Char) :
    (getG (aggregate l) k).ean_ref = (firstValidEanFor l k).getD [] ∧
      ∀ e, firstValidEanFor l k = some e → (getG (aggregate l) k).ean_ref = e := by
  constructor
  · have h := fold_ean_ref l [] k
    cases hf : firstValidEanFor l k with
    | some e => rw [hf] at h; exact h
    | none => rw [hf] at h; exact h
  · intro e hf
    have h := fold_ean_ref l [] k
    rw [hf] at h
    exact h

/-! EAN validation and key resolution. -/

theorem isEmpty_eq_false_iff {α : Type} (l : List α) : l.isEmpty = false ↔ l ≠ [] := by
  cases l <;> simp

/-- C6 counterexample: a string with a leading space (a non-digit character)
is accepted, because is_valid_ean strips surrounding whitespace before
checking; the claim says any string containing a non-digit must be
rejected. -/
theorem valid_ean_accepts_whitespace :
    is_valid_ean (some (' ' :: "1234567".data)) = true ∧ pyIsDigit ' ' = false := by
  decide

/-- C6 (amended): is_valid_ean strips leading and trailing whitespace first;
it returns true exactly for non-null strings whose stripped form is
non-empty, consists entirely of decimal digits, and has length between 7 and
14 inclusive. A string differing from a valid EAN only by surrounding
whitespace is accepted, not rejected. -/
theorem valid_ean_stripped_digits :
    (∀ s : List Char, is_valid_ean (some s) = true ↔
      pyStrip s ≠ [] ∧ (∀ c ∈ pyStrip s, pyIsDigit c = true) ∧
        7 ≤ (pyStrip s).length ∧ (pyStrip s).length ≤ 14) ∧
    is_valid_ean none = false := by
  refine ⟨?_, rfl⟩
  intro s
  show (pyIsDigitStr (pyStrip s) && decide (7 ≤ (pyStrip s).length) &&
      decide ((pyStrip s).length ≤ 14)) = true ↔ _
  unfold pyIsDigitStr
  simp only [Bool.and_eq_true, decide_eq_true_eq, Bool.not_eq_true',
    List.all_eq_true, isEmpty_eq_false_iff, and_assoc]

/-- C7: the match key is the EAN string itself, verbatim, whenever the EAN
validates, and the literal NAME_ followed by the cleaned product name
otherwise; in particular the non-digit ean abc123 with name
Vitamina C 1000mg falls back to the name-based key. The key is a pure
function of (ean, name), so it is deterministic and total by construction. -/
theorem resolve_key_policy :
    (∀ (s n : List Char), is_valid_ean (some s) = true → match_key (some s) n = s) ∧
    (∀ (e : Option (List Char)) (n : List Char), is_valid_ean e = false →
      match_key e n = "NAME_".data ++ clean_name n) ∧
    match_key (some "abc123".data) "Vitamina C 1000mg".data =
      "NAME_vitamina c 1000mg".data := by
  refine ⟨?_, ?_, by decide⟩
  · intro s n h
    unfold match_key
    rw [if_pos h]
    rfl
  · intro e n h
    unfold match_key
    rw [if_neg (by rw [h]; exact Bool.false_ne_true)]

/-- C8 counterexample: the null-price (and empty-url) observation still
changes its group's reference name, and an empty-url observation with a
price does land in best_by_source; neither is discarded. -/
theorem null_price_still_mutates :
    (getG (aggregate [oNullPrecio])
        (match_key none "Producto Sin Precio Larguisimo".data)).nombre_ref =
      "Producto Sin Precio Larguisimo".data ∧
    dget (getG (aggregate [oEmptyUrl])
        (match_key none "Producto Sin URL".data)).precios "DosFarma".data = some 2 := by
  decide

/-- C8 (amended): observations are not filtered on price or URL before
aggregation. An observation with a null price leaves every per-pharmacy
dictionary (prices, urls, stocks) of its group unchanged and leaves every
other group untouched, but it still reaches the group and may update
reference_name and reference_ean; the URL is never inspected, so an
empty-URL observation with a price updates best_by_source like any other. -/
theorem null_price_frame (G : List (List Char × Group)) (o : Obs)
    (h : o.precio = none) :
    (getG (stepObs G o) (match_key o.ean o.nombre)).precios =
        (getG G (match_key o.ean o.nombre)).precios ∧
      (getG (stepObs G o) (match_key o.ean o.nombre)).urls =
        (getG G (match_key o.ean o.nombre)).urls ∧
      (getG (stepObs G o) (match_key o.ean o.nombre)).stocks =
        (getG G (match_key o.ean o.nombre)).stocks ∧
      ∀ k, k ≠ match_key o.ean o.nombre → getG (stepObs G o) k = getG G k := by
  rw [getG_step_self]
  unfold updGroup
  rw [updPrecio_noPrice _ _ h]
  refine ⟨?_, ?_, ?_, fun k hk => getG_step_ne G o k hk⟩
  · rw [updEan_precios, updName_precios]
  · rw [updEan_urls, updName_urls]
  · rw [updEan_stocks, updName_stocks]

/-- C8 witness: the concrete null-price observation applied to the empty
state changes none of the per-pharmacy dictionaries of its group. -/
theorem null_price_frame_witness :
    (getG (stepObs [] oNullPrecio) (match_key oNullPrecio.ean oNullPrecio.nombre)).precios =
        (getG [] (match_key oNullPrecio.ean oNullPrecio.nombre)).precios ∧
      (getG (stepObs [] oNullPrecio) (match_key oNullPrecio.ean oNullPrecio.nombre)).urls =
        (getG [] (match_key oNullPrecio.ean oNullPrecio.nombre)).urls ∧
      (getG (stepObs [] oNullPrecio) (match_key oNullPrecio.ean oNullPrecio.nombre)).stocks =
        (getG [] (match_key oNullPrecio.ean oNullPrecio.nombre)).stocks ∧
      ∀ k, k ≠ match_key oNullPrecio.ean oNullPrecio.nombre →
        getG (stepObs [] oNullPrecio) k = getG [] k :=
  null_price_frame [] oNullPrecio rfl

/-! The paged driver. -/

theorem isEmpty_false_of_length_pos {α : Type} (l : List α) (h : 0 < l.length) :
    l.isEmpty = false := by
  cases l
  · simp at h
  · rfl

/-- Below the total and inside the data, the loop fetches one page and
recurses past it. -/
theorem pageLoop_step (db : List Obs) (total batch : Nat) (hb : 0 < batch) (offset : Nat)
    (hlt : offset < total) (hlen : offset < db.length) :
    pageLoop db total batch hb offset =
      ((db.drop offset).take batch) :: pageLoop db total batch hb (offset + batch) := by
  rw [pageLoop]
  rw [dif_pos hlt]
  have hne : ((db.drop offset).take batch).isEmpty = false := by
    apply isEmpty_false_of_length_pos
    rw [List.length_take, List.length_drop]
    exact lt_min hb (by omega)
  simp only [hne, Bool.false_eq_true, if_false]

/-- At or past the total the loop stops. -/
theorem pageLoop_stop (db : List Obs) (total batch : Nat) (hb : 0 < batch) (offset : Nat)
    (h : ¬ offset < total) : pageLoop db total batch hb offset = [] := by
  rw [pageLoop, dif_neg h]

/-- When the reported total is the true row count, the pages concatenate
back to the unfetched suffix of the data. -/
theorem pageLoop_join (db : List Obs) (batch : Nat) (hb : 0 < batch) :
    ∀ offset, (pageLoop db db.length batch hb offset).flatten = db.drop offset := by
  have main : ∀ (n offset : Nat), db.length - offset ≤ n →
      (pageLoop db db.length batch hb offset).flatten = db.drop offset := by
    intro n
    induction n with
    | zero =>
      intro offset h
      have hno : ¬ offset < db.length := by omega
      rw [pageLoop_stop db db.length batch hb offset hno]
      have hdrop : db.drop offset = [] := List.drop_eq_nil_of_le (by omega)
      rw [hdrop]
      rfl
    | succ n ih =>
      intro offset h
      by_cases hlt : offset < db.length
      · rw [pageLoop_step db db.length batch hb offset hlt hlt]
        rw [List.flatten_cons]
        rw [ih (offset + batch) (by omega)]
        have hdd : db.drop (offset + batch) = (db.drop offset).drop batch := by
          rw [List.drop_drop, Nat.add_comm]
        rw [hdd]
        exact List.take_append_drop batch (db.drop offset)
      · rw [pageLoop_stop db db.length batch hb offset hlt]
        have hdrop : db.drop offset = [] := List.drop_eq_nil_of_le (by omega)
        rw [hdrop]
        rfl
  exact fun offset => main (db.length - offset) offset (le_refl _)

/-- Folding page by page is folding the concatenation of the pages. -/
theorem foldl_pages_join (pages : List (List Obs)) :
    ∀ st : List (List Char × Group),
      pages.foldl (fun st page => page.foldl stepObs st) st =
        pages.flatten.foldl stepObs st := by
  induction pages with
  | nil => intro st; rfl
  | cons p ps ih =>
    intro st
    rw [List.foldl_cons, List.flatten_cons, List.foldl_append]
    exact ih (p.foldl stepObs st)

/-- The paged run computes exactly the single-pass aggregation, whatever
the page size. -/
theorem driveState_eq_aggregate (db : List Obs) (batch : Nat) (hb : 0 < batch) :
    driveState db batch hb = aggregate db := by
  unfold driveState drive aggregate
  rw [foldl_pages_join, pageLoop_join db batch hb 0, List.drop_zero]

/-- C9: on a 250-row source, page size 100 performs exactly 3 page fetches of
100, 100 and 50 rows, and the aggregator state after the paged run equals the
state of the single 250-row fetch. -/
theorem paged_run_eq_single (db : List Obs) (h : db.length = 250) :
    (drive db 100 (by decide)).map List.length = [100, 100, 50] ∧
      driveState db 100 (by decide) = driveState db 250 (by decide) := by
  constructor
  · unfold drive
    rw [h]
    rw [pageLoop_step db 250 100 _ 0 (by norm_num) (by omega)]
    have e1 : (0 : Nat) + 100 = 100 := rfl
    rw [e1]
    rw [pageLoop_step db 250 100 _ 100 (by norm_num) (by omega)]
    have e2 : (100 : Nat) + 100 = 200 := rfl
    rw [e2]
    rw [pageLoop_step db 250 100 _ 200 (by norm_num) (by omega)]
    have e3 : (200 : Nat) + 100 = 300 := rfl
    rw [e3]
    rw [pageLoop_stop db 250 100 _ 300 (by norm_num)]
    simp only [List.map_cons, List.map_nil, List.length_take, List.length_drop, h,
      List.cons.injEq, and_true]
    omega
  · rw [driveState_eq_aggregate db 100 (by decide),
      driveState_eq_aggregate db 250 (by decide)]

/-- C9 witness: a concrete 250-observation source. -/
theorem paged_run_eq_single_witness :
    (drive (List.replicate 250 oOut3) 100 (by decide)).map List.length = [100, 100, 50] ∧
      driveState (List.replicate 250 oOut3) 100 (by decide) =
        driveState (List.replicate 250 oOut3) 250 (by decide) :=
  paged_run_eq_single (List.replicate 250 oOut3) (List.length_replicate 250 oOut3)

end Farmacia
